import Mathlib

/-!
Verification of the map-coloring engine of the `clm-municipios` repository.

The development shallowly embeds the coloring utilities of
`src/utils/coloring.ts` (bounding boxes, shared-vertex adjacency,
`buildAdjacency`, the greedy `assignColors`) and the hash-based community
color assigner of `src/components/map/MapCanvas.tsx`
(`stringHash` / `colorForCommunity` with its module-level cache).

Modelling conventions:
* JavaScript `Map` objects are modelled as association lists
  (`JsMap α := List (String × α)`); `Map.set` replaces the value of an
  existing key in place and appends fresh keys, `Map.get` returns the first
  (unique) binding.  JavaScript `Set<string>` objects are modelled as
  duplicate-free lists with membership-guarded append.
* JavaScript numbers appearing as coordinates are modelled as rationals.
  `Math.min()`/`Math.max()` over an empty argument list return
  `Infinity`/`-Infinity`, so bounding-box fields live in `XRat`, rationals
  extended with both infinities.
* GeoJSON coordinate arrays are modelled as a cons-tree (`CoordTree`): a
  leaf is an array whose first entry is a number (a position, of which the
  code only reads indices 0 and 1), and nested arrays are built from
  `nil`/`cons`.  This mirrors the `typeof c[0] === 'number'` test used by
  the `collect` helpers.
* `Array.prototype.sort` with a consistent comparator is stable (ES2019);
  a stable sort is uniquely determined by the comparator, so it is embedded
  as a stable insertion sort (`ssort`).
* `toFixed(6)` string keys used by `shareVertex` are modelled by rounding
  the rational coordinate to six decimals (round half toward `+∞`, which is
  what `toFixed` does on exact values).
-/

namespace Clm

/-! ### JavaScript `Map` / `Set` model -/

abbrev JsMap (α : Type) := List (String × α)

/-- JavaScript `Map.get`: the value bound to `k`, if any. -/
def jsGet {α : Type} : JsMap α → String → Option α
  | [], _ => none
  | e :: m, k => if e.1 = k then some e.2 else jsGet m k

/-- JavaScript `Map.set`: replace the binding of an existing key in place, append a
fresh key at the end (JavaScript `Map` insertion-order semantics). -/
def jsSet {α : Type} : JsMap α → String → α → JsMap α
  | [], k, v => [(k, v)]
  | e :: m, k, v => if e.1 = k then (k, v) :: m else e :: jsSet m k v

/-- In-place mutation of the value stored under an existing key, as in
`adjacency.get(id)!.add(...)`.  A missing key is left untouched (the
source would throw there; `buildAdjacency` provably never does). -/
def mapUpdate {α : Type} : JsMap α → String → (α → α) → JsMap α
  | [], _, _ => []
  | e :: m, k, f => if e.1 = k then (e.1, f e.2) :: m else e :: mapUpdate m k f

/-- JavaScript `Set.add` on the duplicate-free-list model of a `Set`. -/
def jsAdd (s : List String) (x : String) : List String :=
  if x ∈ s then s else s ++ [x]

/-- The keys of a map, in insertion order. -/
def mapKeys {α : Type} (m : JsMap α) : List String := m.map (·.1)

/-! ### Rationals extended with `±Infinity` -/

/-- JavaScript numbers produced by `Math.min()` / `Math.max()`:
rationals together with `-Infinity` and `Infinity`. -/
inductive XRat where
  | ninf
  | fin (q : ℚ)
  | pinf
deriving DecidableEq

/-- The JavaScript `<` comparison on extended rationals. -/
def XRat.ltB : XRat → XRat → Bool
  | .ninf, .ninf => false
  | .ninf, _ => true
  | .fin _, .ninf => false
  | .fin a, .fin b => decide (a < b)
  | .fin _, .pinf => true
  | .pinf, _ => false

/-- JavaScript `Math.min` on two extended rationals. -/
def xmin (a b : XRat) : XRat := if XRat.ltB a b then a else b

/-- JavaScript `Math.max` on two extended rationals. -/
def xmax (a b : XRat) : XRat := if XRat.ltB a b then b else a

/-! ### GeoJSON geometry model -/

/-- The nested coordinate arrays of a GeoJSON geometry, as a cons-tree.
`pt x y` is an array whose first entry is a number (a coordinate pair —
the source only ever reads indices 0 and 1); `nil`/`cons` build the
surrounding nested arrays. -/
inductive CoordTree where
  | pt (x y : ℚ)
  | nil
  | cons (head tail : CoordTree)
deriving DecidableEq

/-- The `collect` helper of `coloring.ts`: depth-first flattening of the
coordinate tree into the list of positions. -/
def collectPts : CoordTree → List (ℚ × ℚ)
  | .pt x y => [(x, y)]
  | .nil => []
  | .cons h t => collectPts h ++ collectPts t

/-- A GeoJSON feature as consumed by `coloring.ts`: an optional top-level
`id`, an optional `properties.id`, and an optional geometry (`none`
models a null/absent `feature.geometry`). -/
structure Feature where
  id : Option String
  propId : Option String
  geom : Option CoordTree
deriving DecidableEq

/-- Embeds `String(f.id ?? f.properties?.id ?? i)`: the id fallback chain used
throughout `coloring.ts`. -/
def resolveId (f : Feature) (i : ℕ) : String :=
  f.id.getD (f.propId.getD (toString i))

/-- The resolved ids of all features, in input order. -/
def resolvedIds (fs : List Feature) : List String :=
  fs.enum.map fun p => resolveId p.2 p.1

/-- The `collect` helper applied through the optional-chaining guard
(`(a.geometry as any)?.coordinates`, and the `if (!c) return` check):
a missing geometry contributes no positions. -/
def collectOptPts : Option CoordTree → List (ℚ × ℚ)
  | none => []
  | some t => collectPts t

/-! ### `coloring.ts`: bounding boxes and shared-vertex adjacency -/

/-- The palette of `src/utils/coloring.ts`. -/
def PALETTE : List String :=
  ["#00A6ED", "#7ED957", "#7E57C2", "#FF6F00", "#FF5252",
   "#FFEB3B", "#E91E63", "#00BFA5", "#2962FF", "#D68600"]

structure BBox where
  minX : XRat
  minY : XRat
  maxX : XRat
  maxY : XRat
deriving DecidableEq

/-- Embeds `bboxOf`: the axis-aligned bounding box of a feature.  A missing
geometry yields the all-zero box; a geometry without positions yields
`Math.min()` / `Math.max()` of nothing, i.e. `∞`/`-∞` fields. -/
def bboxOf (f : Feature) : BBox :=
  match f.geom with
  | none => ⟨.fin 0, .fin 0, .fin 0, .fin 0⟩
  | some t =>
    let pts := collectPts t
    let xs := pts.map fun p => p.1
    let ys := pts.map fun p => p.2
    { minX := xs.foldr (fun q m => xmin (.fin q) m) .pinf
      minY := ys.foldr (fun q m => xmin (.fin q) m) .pinf
      maxX := xs.foldr (fun q m => xmax (.fin q) m) .ninf
      maxY := ys.foldr (fun q m => xmax (.fin q) m) .ninf }

/-- Embeds `bboxesIntersect`: the classic AABB overlap test of `coloring.ts`. -/
def bboxesIntersect (a b : BBox) : Bool :=
  !(XRat.ltB a.maxX b.minX || XRat.ltB b.maxX a.minX ||
    XRat.ltB a.maxY b.minY || XRat.ltB b.maxY a.minY)

/-- The `toFixed(6)` key of one coordinate: round to six decimals (nearest,
half toward `+∞`), i.e. `⌊q·10⁶ + 1/2⌋`, written as a floor division of
integers (`rnd6_eq_floor` below certifies the equality). -/
def rnd6 (q : ℚ) : ℤ := Int.fdiv (2 * 1000000 * q.num + q.den) (2 * q.den)

/-- The `"x.toFixed(6),y.toFixed(6)"` key of a position. -/
def vkey (p : ℚ × ℚ) : ℤ × ℤ := (rnd6 p.1, rnd6 p.2)

/-- Embeds `shareVertex`: do the two features have a coincident (rounded)
vertex? -/
def shareVertex (a b : Feature) : Bool :=
  let keysA := (collectOptPts a.geom).map vkey
  (collectOptPts b.geom).any fun p => keysA.contains (vkey p)

/-! ### `buildAdjacency` -/

/-- The ordered pairs `(l[i], l[j])`, `i < j`, in the double-loop order of
`buildAdjacency`. -/
def ordPairs {α : Type} : List α → List (α × α)
  | [] => []
  | x :: xs => (xs.map fun y => (x, y)) ++ ordPairs xs

/-- The first loop of `buildAdjacency`: every resolved id is bound to an
empty neighbor set. -/
def adjInit (fs : List Feature) : JsMap (List String) :=
  fs.enum.foldl (fun m p => jsSet m (resolveId p.2 p.1) []) []

/-- One iteration of the pair loop of `buildAdjacency`.  (The source
precomputes `features.map(bboxOf)` and indexes into it; `bboxOf` is pure,
so recomputing it here is observationally identical.) -/
def adjPairStep (m : JsMap (List String)) (pr : (ℕ × Feature) × (ℕ × Feature)) :
    JsMap (List String) :=
  let idA := resolveId pr.1.2 pr.1.1
  let idB := resolveId pr.2.2 pr.2.1
  if bboxesIntersect (bboxOf pr.1.2) (bboxOf pr.2.2) && shareVertex pr.1.2 pr.2.2 then
    mapUpdate (mapUpdate m idA (fun s => jsAdd s idB)) idB (fun s => jsAdd s idA)
  else m

/-- Embeds `buildAdjacency` of `coloring.ts`. -/
def buildAdjacency (fs : List Feature) : JsMap (List String) :=
  (ordPairs fs.enum).foldl adjPairStep (adjInit fs)

/-- The neighbor set stored under an id (`adjacency.get(id) ?? []`). -/
def neighbors (adj : JsMap (List String)) (x : String) : List String :=
  (jsGet adj x).getD []

/-- The maximum degree occurring in an adjacency map. -/
def maxDegree (adj : JsMap (List String)) : ℕ :=
  adj.foldr (fun e m => max e.2.length m) 0

/-! ### Stable sorting (ES2019 `Array.prototype.sort`) -/

/-- Stable insertion of `x` before the first element `y` with `le x y`
(so an element tied with `x` that occurred earlier in the input stays in
front of `x`). -/
def sinsert {α : Type} (le : α → α → Bool) (x : α) : List α → List α
  | [] => [x]
  | y :: ys => if le x y then x :: y :: ys else y :: sinsert le x ys

/-- Stable insertion sort: the unique result of a stable sort under a
consistent comparator, hence the result of `Array.prototype.sort`. -/
def ssort {α : Type} (le : α → α → Bool) : List α → List α
  | [] => []
  | x :: xs => sinsert le x (ssort le xs)

/-! ### `assignColors` -/

/-- Embeds `usageCount.get(c) ?? 0`. -/
def usageOf (u : JsMap ℕ) (c : String) : ℕ := (jsGet u c).getD 0

/-- The comparator of `paletteByUsage`: usage count ascending, ties broken
by palette index. -/
def usageLe (palette : List String) (u : JsMap ℕ) (a b : String) : Bool :=
  usageOf u a < usageOf u b ||
    (usageOf u a == usageOf u b && palette.indexOf a ≤ palette.indexOf b)

/-- The comparator of `degree.sort((a, b) => b.d - a.d)`: degree
descending, stable. -/
def degLe (a b : String × ℕ) : Bool := b.2 ≤ a.2

/-- The forbidden set of the region being processed: colors already
assigned to its neighbors (`if (c) used.add(c)` skips falsy values, i.e.
the empty string). -/
def usedColors (adj : JsMap (List String)) (col : JsMap String) (id : String) :
    List String :=
  (neighbors adj id).filterMap fun nb =>
    match jsGet col nb with
    | some c => if c = "" then none else some c
    | none => none

/-- Color choice of one loop iteration: first palette entry (in usage
order) not used by a neighbor, else the least-used entry
(`paletteByUsage[0]`). -/
def chooseColor (palette : List String) (u : JsMap ℕ) (used : List String) :
    String :=
  let pal := ssort (usageLe palette u) palette
  match pal.find? (fun c => !(decide (c ∈ used))) with
  | some c => c
  | none => pal.headD ""

/-- The mutable state of the `assignColors` loop. -/
structure CState where
  colorById : JsMap String
  usage : JsMap ℕ

/-- One iteration of the greedy loop of `assignColors`. -/
def assignStep (adj : JsMap (List String)) (palette : List String)
    (st : CState) (id : String) : CState :=
  let used := usedColors adj st.colorById id
  let c := chooseColor palette st.usage used
  ⟨jsSet st.colorById id c, jsSet st.usage c (usageOf st.usage c + 1)⟩

/-- Embeds `assignColors`, parametrized by the palette it closes over (the source
uses the module constant `PALETTE`). -/
def assignColorsWith (palette : List String) (fs : List Feature) : JsMap String :=
  let adj := buildAdjacency fs
  let ids := resolvedIds fs
  let degree := ids.map fun id => (id, (jsGet adj id).getD [] |>.length)
  let order := ssort degLe degree
  (order.foldl (fun st p => assignStep adj palette st p.1)
    ⟨[], palette.map fun c => (c, 0)⟩).colorById

/-- Embeds `assignColors` of `coloring.ts`. -/
def assignColors (fs : List Feature) : JsMap String :=
  assignColorsWith PALETTE fs

/-! ### `MapCanvas.tsx`: the hash-based community color assigner -/

/-- The community palette of `MapCanvas.tsx` (12 entries). -/
def communityPalette : List String :=
  ["#0ea5e9", "#f97316", "#34d399", "#a855f7", "#ef4444", "#22d3ee",
   "#fbbf24", "#c084fc", "#4ade80", "#fb7185", "#38bdf8", "#facc15"]

/-- Embeds `x |= 0`: wrap an integer to signed 32-bit range. -/
def toInt32 (n : ℤ) : ℤ := (n + 2 ^ 31) % 2 ^ 32 - 2 ^ 31

/-- The rolling hash `hash = (hash << 5) - hash + charCode; hash |= 0` of
`MapCanvas.tsx` / `stringHash` of the MapLibre canvas, followed by
`Math.abs`. -/
def stringHash (s : String) : ℕ :=
  (s.data.foldl (fun h c => toInt32 (toInt32 (h * 32) - h + c.toNat)) 0).natAbs

/-- The color computed for a community id on a cache miss:
`communityPalette[Math.abs(hash) % communityPalette.length]`. -/
def colorForCommunity (id : String) : String :=
  communityPalette.getD (stringHash id % communityPalette.length) ""

/-- Embeds `colorForCommunity` including its module-level cache: return the
cached color if present, otherwise compute, cache and return it. -/
def colorForCommunityCached (cache : JsMap String) (id : String) :
    String × JsMap String :=
  match jsGet cache id with
  | some c => (c, cache)
  | none => (colorForCommunity id, jsSet cache id (colorForCommunity id))

/-- One render pass of the hash assigner over a list of community ids:
the id-to-color mapping produced, together with the cache it leaves
behind for the next pass. -/
def hashAssignRun (cache : JsMap String) (ids : List String) :
    JsMap String × JsMap String :=
  ids.foldl
    (fun acc id =>
      let r := colorForCommunityCached acc.2 id
      (jsSet acc.1 id r.1, r.2))
    ([], cache)

/-- Modelled from the spec (no code in the repository sorts ids by hash):
the positional hash assigner described in §4.3 of the specification —
sort all ids by `(hash, id)` (hash primary, id string tie-break) and
assign `palette[index % paletteLength]` by sorted position. -/
def specPositionalAssign (ids : List String) : JsMap String :=
  let le := fun a b : String =>
    stringHash a < stringHash b ||
      (stringHash a == stringHash b && !(decide (b < a)))
  let sorted := ssort le ids
  sorted.enum.map fun p =>
    (p.2, communityPalette.getD (p.1 % communityPalette.length) "")

/-! ### Derived predicates and concrete inputs used by the theorems -/

/-- A bounding box with no positive extent on either axis — this is what
"empty bounding box" denotes: both the all-zero box of a missing geometry
and the `∞`/`-∞` box of a geometry without positions satisfy it, and no
box that actually spans an area does. -/
def BBox.collapsed (b : BBox) : Bool :=
  !(XRat.ltB b.minX b.maxX) && !(XRat.ltB b.minY b.maxY)

/-- No two distinct adjacent ids share a color. -/
def ProperColoring (adj : JsMap (List String)) (col : JsMap String) : Prop :=
  ∀ a b ca cb, b ∈ neighbors adj a → a ≠ b →
    jsGet col a = some ca → jsGet col b = some cb → ca ≠ cb

/-- All assigned colors belong to the palette. -/
def ValuesIn (palette : List String) (col : JsMap String) : Prop :=
  ∀ x c, jsGet col x = some c → c ∈ palette

/-- The community color cache only ever holds the hash-computed color of
its key (true of the empty module-load cache, and preserved by every
lookup). -/
def CacheConsistent (cache : JsMap String) : Prop :=
  ∀ x c, jsGet cache x = some c → c = colorForCommunity x

/-- Unit square with corners `(0,0)`–`(1,1)`, id `"a"`. -/
def wA : Feature :=
  ⟨some "a", none, some (.cons (.cons (.pt 0 0) (.cons (.pt 1 0)
    (.cons (.pt 1 1) (.cons (.pt 0 1) (.cons (.pt 0 0) .nil))))) .nil)⟩

/-- Unit square with corners `(1,0)`–`(2,1)` (touches `wA`), id `"b"`. -/
def wB : Feature :=
  ⟨some "b", none, some (.cons (.cons (.pt 1 0) (.cons (.pt 2 0)
    (.cons (.pt 2 1) (.cons (.pt 1 1) (.cons (.pt 1 0) .nil))))) .nil)⟩

/-- A far-away triangle, id `"c"`. -/
def wC : Feature :=
  ⟨some "c", none, some (.cons (.cons (.pt 50 50) (.cons (.pt 51 50)
    (.cons (.pt 51 51) (.cons (.pt 50 50) .nil)))) .nil)⟩

/-- A feature with missing geometry, id `"e"`. -/
def wE : Feature := ⟨some "e", none, none⟩

/-- Duplicate-id counterexample material: id `"x"` far away. -/
def dupXFar : Feature := ⟨some "x", none, some (.cons (.pt 100 100) .nil)⟩

/-- Duplicate-id counterexample material: a second region also resolving
to id `"x"`, at the origin. -/
def dupXNear : Feature := ⟨some "x", none, some (.cons (.pt 0 0) .nil)⟩

/-- Duplicate-id counterexample material: id `"y"` at the origin. -/
def dupY : Feature := ⟨some "y", none, some (.cons (.pt 0 0) .nil)⟩

/-- Duplicate-id counterexample material: id `"x"` with missing
geometry. -/
def dupXNone : Feature := ⟨some "x", none, none⟩

/-- Input violating the unrestricted reading of the bounding-box claim:
two features named `"x"`, one far from `"y"`, one touching it. -/
def cexBBoxList : List Feature := [dupXFar, dupY, dupXNear]

/-- Input violating the unrestricted reading of the empty-geometry claim:
a missing-geometry `"x"` plus a second `"x"` touching `"y"`. -/
def cexGeomList : List Feature := [dupXNone, dupXNear, dupY]

/-- Concrete adjacency for the palette-exhaustion witness: region `"r"`
with two neighbors. -/
def wAdj6 : JsMap (List String) :=
  [("r", ["n1", "n2"]), ("n1", ["r"]), ("n2", ["r"])]

/-- Concrete loop state for the palette-exhaustion witness: both
palette colors already sit on a neighbor of `"r"`. -/
def wSt6 : CState := ⟨[("n1", "ca"), ("n2", "cb")], [("ca", 1), ("cb", 1)]⟩

/-! ## Lemmas about the JavaScript collection model -/

@[simp] theorem mapKeys_nil {α : Type} : mapKeys ([] : JsMap α) = [] := rfl

@[simp] theorem mapKeys_cons {α : Type} (e : String × α) (m : JsMap α) :
    mapKeys (e :: m) = e.1 :: mapKeys m := rfl

theorem jsGet_jsSet_self {α : Type} (m : JsMap α) (k : String) (v : α) :
    jsGet (jsSet m k v) k = some v := by
  induction m with
  | nil => simp [jsSet, jsGet]
  | cons e m ih =>
    by_cases h : e.1 = k
    · simp [jsSet, h, jsGet]
    · simp [jsSet, h, jsGet, ih]

theorem jsGet_jsSet_ne {α : Type} (m : JsMap α) {k k' : String} (v : α)
    (h : k' ≠ k) : jsGet (jsSet m k v) k' = jsGet m k' := by
  have hne : ¬ k = k' := fun h' => h h'.symm
  induction m with
  | nil => simp [jsSet, jsGet, hne]
  | cons e m ih =>
    by_cases he : e.1 = k
    · subst he
      simp [jsSet, jsGet, hne]
    · simp [jsSet, he, jsGet, ih]

theorem jsGet_isSome_iff {α : Type} (m : JsMap α) (k : String) :
    (jsGet m k).isSome ↔ k ∈ mapKeys m := by
  induction m with
  | nil => simp [jsGet]
  | cons e m ih =>
    by_cases h : e.1 = k
    · simp [jsGet, h]
    · have hne : ¬ k = e.1 := fun h' => h h'.symm
      simp [jsGet, h, ih, hne]

theorem mapKeys_jsSet_of_mem {α : Type} {m : JsMap α} {k : String} (v : α)
    (h : k ∈ mapKeys m) : mapKeys (jsSet m k v) = mapKeys m := by
  induction m with
  | nil => simp at h
  | cons e m ih =>
    by_cases he : e.1 = k
    · simp [jsSet, he]
    · have : k ∈ mapKeys m := by
        rcases (by simpa using h : k = e.1 ∨ k ∈ mapKeys m) with h' | h'
        · exact absurd h'.symm he
        · exact h'
      simp [jsSet, he, ih this]

theorem mapKeys_jsSet_of_not_mem {α : Type} {m : JsMap α} {k : String} (v : α)
    (h : k ∉ mapKeys m) : mapKeys (jsSet m k v) = mapKeys m ++ [k] := by
  induction m with
  | nil => simp [jsSet]
  | cons e m ih =>
    have he : ¬ e.1 = k := fun he => h (by simp [he])
    have hm : k ∉ mapKeys m := fun hm => h (by simp [hm])
    simp [jsSet, he, ih hm]

theorem mapKeys_mapUpdate {α : Type} (m : JsMap α) (k : String) (f : α → α) :
    mapKeys (mapUpdate m k f) = mapKeys m := by
  induction m with
  | nil => simp [mapUpdate]
  | cons e m ih =>
    by_cases h : e.1 = k <;> simp [mapUpdate, h, ih]

theorem jsGet_mapUpdate_self {α : Type} (m : JsMap α) (k : String) (f : α → α) :
    jsGet (mapUpdate m k f) k = (jsGet m k).map f := by
  induction m with
  | nil => simp [mapUpdate, jsGet]
  | cons e m ih =>
    by_cases h : e.1 = k
    · simp [mapUpdate, h, jsGet]
    · simp [mapUpdate, h, jsGet, ih]

theorem jsGet_mapUpdate_ne {α : Type} (m : JsMap α) {k k' : String} (f : α → α)
    (h : k' ≠ k) : jsGet (mapUpdate m k f) k' = jsGet m k' := by
  have hne : ¬ k = k' := fun h' => h h'.symm
  induction m with
  | nil => simp [mapUpdate]
  | cons e m ih =>
    by_cases he : e.1 = k
    · subst he
      simp [mapUpdate, jsGet, hne]
    · simp [mapUpdate, he, jsGet, ih]

theorem jsGet_mem {α : Type} {m : JsMap α} {k : String} {v : α}
    (h : jsGet m k = some v) : (k, v) ∈ m := by
  induction m with
  | nil => simp [jsGet] at h
  | cons e m ih =>
    by_cases he : e.1 = k
    · simp only [jsGet, he, if_pos, Option.some.injEq] at h
      exact (by cases e; simp_all : (k, v) = e) ▸ List.mem_cons_self e m
    · simp only [jsGet, he, if_neg, Bool.false_eq_true, if_false] at h
      exact List.mem_cons_of_mem _ (ih h)

theorem mem_jsAdd {s : List String} {x y : String} :
    y ∈ jsAdd s x ↔ y ∈ s ∨ y = x := by
  by_cases h : x ∈ s
  · constructor
    · intro hy
      simp only [jsAdd, h, if_pos] at hy
      exact Or.inl hy
    · rintro (hy | rfl)
      · simp only [jsAdd, h, if_pos]
        exact hy
      · simp only [jsAdd, h, if_pos]
  · simp [jsAdd, h]

/-! ## Lemmas about the stable sort -/

theorem sinsert_perm {α : Type} (le : α → α → Bool) (x : α) (l : List α) :
    (sinsert le x l).Perm (x :: l) := by
  induction l with
  | nil => simp [sinsert]
  | cons y ys ih =>
    by_cases h : le x y
    · simp [sinsert, h]
    · simp only [sinsert, h, if_neg, Bool.false_eq_true, if_false]
      exact ((ih.cons y).trans (List.Perm.swap x y ys))

theorem ssort_perm {α : Type} (le : α → α → Bool) (l : List α) :
    (ssort le l).Perm l := by
  induction l with
  | nil => simp [ssort]
  | cons x xs ih => exact (sinsert_perm le x (ssort le xs)).trans (ih.cons x)

theorem mem_ssort {α : Type} {le : α → α → Bool} {l : List α} {a : α} :
    a ∈ ssort le l ↔ a ∈ l :=
  (ssort_perm le l).mem_iff

theorem sinsert_pairwise {α : Type} {le : α → α → Bool}
    (htrans : ∀ a b c, le a b = true → le b c = true → le a c = true)
    (htot : ∀ a b, le a b = true ∨ le b a = true)
    {x : α} {l : List α} (hl : l.Pairwise (le · · = true)) :
    (sinsert le x l).Pairwise (le · · = true) := by
  induction l with
  | nil => simp [sinsert]
  | cons y ys ih =>
    rcases List.pairwise_cons.1 hl with ⟨hy, hys⟩
    by_cases h : le x y
    · rw [show sinsert le x (y :: ys) = x :: y :: ys by simp [sinsert, h]]
      refine List.pairwise_cons.2 ⟨?_, hl⟩
      intro z hz
      rcases List.mem_cons.1 hz with rfl | hz
      · exact h
      · exact htrans x y z h (hy _ hz)
    · rw [show sinsert le x (y :: ys) = y :: sinsert le x ys by
        simp [sinsert, h]]
      refine List.pairwise_cons.2 ⟨?_, ih hys⟩
      intro z hz
      rcases List.mem_cons.1 ((sinsert_perm le x ys).mem_iff.1 hz) with rfl | hz
      · rcases htot y z with hyx | hxy
        · exact hyx
        · exact absurd hxy h
      · exact hy _ hz

theorem ssort_pairwise {α : Type} {le : α → α → Bool}
    (htrans : ∀ a b c, le a b = true → le b c = true → le a c = true)
    (htot : ∀ a b, le a b = true ∨ le b a = true) (l : List α) :
    (ssort le l).Pairwise (le · · = true) := by
  induction l with
  | nil => simp [ssort]
  | cons x xs ih => exact sinsert_pairwise htrans htot ih

/-! ## Lemmas about `buildAdjacency` -/

theorem adjInit_get_aux (L : List (ℕ × Feature)) (m : JsMap (List String))
    (x : String) :
    jsGet (L.foldl (fun m p => jsSet m (resolveId p.2 p.1) []) m) x
      = if x ∈ L.map (fun p => resolveId p.2 p.1) then some [] else jsGet m x := by
  induction L generalizing m with
  | nil => simp
  | cons p L ih =>
    simp only [List.foldl_cons, List.map_cons, List.mem_cons]
    rw [ih]
    by_cases hx : x ∈ L.map fun p => resolveId p.2 p.1
    · simp [hx]
    · by_cases hp : x = resolveId p.2 p.1
      · simp [hx, hp, jsGet_jsSet_self]
      · simp [hx, hp, jsGet_jsSet_ne _ _ hp]

theorem adjInit_get (fs : List Feature) (x : String) :
    jsGet (adjInit fs) x = if x ∈ resolvedIds fs then some [] else none := by
  rw [adjInit, adjInit_get_aux]
  rfl

theorem mapKeys_jsSet_fold (L : List (ℕ × Feature)) (m : JsMap (List String))
    (hnd : (L.map fun p => resolveId p.2 p.1).Nodup)
    (hdisj : ∀ x ∈ L.map fun p => resolveId p.2 p.1, x ∉ mapKeys m) :
    mapKeys (L.foldl (fun m p => jsSet m (resolveId p.2 p.1) []) m)
      = mapKeys m ++ (L.map fun p => resolveId p.2 p.1) := by
  induction L generalizing m with
  | nil => simp
  | cons p L ih =>
    simp only [List.foldl_cons, List.map_cons]
    have hp : resolveId p.2 p.1 ∉ mapKeys m :=
      hdisj _ (by simp)
    have hnd' : (L.map fun p => resolveId p.2 p.1).Nodup :=
      (List.nodup_cons.1 (by simpa using hnd)).2
    have hne : resolveId p.2 p.1 ∉ L.map fun p => resolveId p.2 p.1 :=
      (List.nodup_cons.1 (by simpa using hnd)).1
    rw [ih _ hnd', mapKeys_jsSet_of_not_mem _ hp, List.append_assoc]
    · rfl
    · intro x hx
      rw [mapKeys_jsSet_of_not_mem _ hp]
      intro hmem
      rcases List.mem_append.1 hmem with h' | h'
      · exact hdisj x (by simp [hx]) h'
      · rcases List.mem_singleton.1 h' with rfl
        exact hne hx

theorem mapKeys_adjInit (fs : List Feature) (h : (resolvedIds fs).Nodup) :
    mapKeys (adjInit fs) = resolvedIds fs := by
  rw [adjInit, mapKeys_jsSet_fold _ _ h (by simp)]
  rfl

theorem mapKeys_adjPairStep (m : JsMap (List String))
    (pr : (ℕ × Feature) × (ℕ × Feature)) :
    mapKeys (adjPairStep m pr) = mapKeys m := by
  rw [adjPairStep]
  split
  · rw [mapKeys_mapUpdate, mapKeys_mapUpdate]
  · rfl

theorem mapKeys_adjPairs_fold (Q : List ((ℕ × Feature) × (ℕ × Feature)))
    (m : JsMap (List String)) :
    mapKeys (Q.foldl adjPairStep m) = mapKeys m := by
  induction Q generalizing m with
  | nil => rfl
  | cons pr Q ih => rw [List.foldl_cons, ih, mapKeys_adjPairStep]

/-- Updating some neighbor set with `Set.add` never removes an existing
membership. -/
theorem mem_neighbors_mapUpdate_mono {m : JsMap (List String)}
    {k x y z : String} (h : y ∈ neighbors m x) :
    y ∈ neighbors (mapUpdate m k (fun s => jsAdd s z)) x := by
  by_cases hxk : x = k
  · rw [neighbors, hxk, jsGet_mapUpdate_self]
    cases hget : jsGet m k with
    | none =>
      rw [neighbors, hxk, hget] at h
      simp at h
    | some s =>
      rw [neighbors, hxk, hget] at h
      simp only [Option.getD_some] at h
      simpa using mem_jsAdd.2 (Or.inl h)
  · rw [neighbors, jsGet_mapUpdate_ne _ _ hxk]
    exact h

/-- Origin of a neighbor-set membership across the symmetric double
update of one successful pair test (no key assumptions). -/
theorem mem_neighbors_double_origin {m : JsMap (List String)} {A B x y : String}
    (h : y ∈ neighbors (mapUpdate (mapUpdate m A (fun s => jsAdd s B)) B
          (fun s => jsAdd s A)) x) :
    y ∈ neighbors m x ∨ (x = A ∧ y = B) ∨ (x = B ∧ y = A) := by
  by_cases hxB : x = B
  · rw [neighbors, hxB, jsGet_mapUpdate_self] at h
    cases hget : jsGet (mapUpdate m A fun s => jsAdd s B) B with
    | none =>
      rw [hget] at h
      simp at h
    | some s =>
      rw [hget] at h
      simp only [Option.map, Option.getD_some] at h
      rcases mem_jsAdd.1 h with hy | rfl
      · by_cases hBA : B = A
        · rw [hBA, jsGet_mapUpdate_self] at hget
          cases hget2 : jsGet m A with
          | none =>
            rw [hget2] at hget
            simp at hget
          | some s0 =>
            rw [hget2] at hget
            simp only [Option.map, Option.some.injEq] at hget
            subst hget
            rcases mem_jsAdd.1 hy with hy0 | hyB
            · refine Or.inl ?_
              rw [neighbors, hxB, hBA, hget2]
              exact hy0
            · exact Or.inr (Or.inr ⟨hxB, hyB⟩)
        · rw [jsGet_mapUpdate_ne _ _ hBA] at hget
          refine Or.inl ?_
          rw [neighbors, hxB, hget]
          exact hy
      · exact Or.inr (Or.inr ⟨hxB, rfl⟩)
  · rw [neighbors, jsGet_mapUpdate_ne _ _ hxB] at h
    by_cases hxA : x = A
    · rw [hxA, jsGet_mapUpdate_self] at h
      cases hget : jsGet m A with
      | none =>
        rw [hget] at h
        simp at h
      | some s =>
        rw [hget] at h
        simp only [Option.map, Option.getD_some] at h
        rcases mem_jsAdd.1 h with hy | rfl
        · refine Or.inl ?_
          rw [neighbors, hxA, hget]
          exact hy
        · exact Or.inr (Or.inl ⟨hxA, rfl⟩)
    · rw [jsGet_mapUpdate_ne _ _ hxA] at h
      exact Or.inl h

/-- Membership in the neighbor sets after the symmetric double update of
one successful pair test, assuming both ids are keys. -/
theorem mem_neighbors_double_update {m : JsMap (List String)} {A B x y : String}
    (hA : A ∈ mapKeys m) (hB : B ∈ mapKeys m) :
    y ∈ neighbors (mapUpdate (mapUpdate m A (fun s => jsAdd s B)) B
          (fun s => jsAdd s A)) x
      ↔ y ∈ neighbors m x ∨ (x = A ∧ y = B) ∨ (x = B ∧ y = A) := by
  obtain ⟨sA, hsA⟩ := Option.isSome_iff_exists.1 ((jsGet_isSome_iff m A).2 hA)
  constructor
  · exact mem_neighbors_double_origin
  · rintro (h | ⟨rfl, rfl⟩ | ⟨rfl, rfl⟩)
    · exact mem_neighbors_mapUpdate_mono (mem_neighbors_mapUpdate_mono h)
    · refine mem_neighbors_mapUpdate_mono ?_
      rw [neighbors, jsGet_mapUpdate_self, hsA]
      simp only [Option.map, Option.getD_some]
      exact mem_jsAdd.2 (Or.inr rfl)
    · have hBkeys : x ∈ mapKeys (mapUpdate m y fun s => jsAdd s x) := by
        rw [mapKeys_mapUpdate]
        exact hB
      obtain ⟨sB, hsB⟩ := Option.isSome_iff_exists.1
        ((jsGet_isSome_iff _ x).2 hBkeys)
      rw [neighbors, jsGet_mapUpdate_self, hsB]
      simp only [Option.map, Option.getD_some]
      exact mem_jsAdd.2 (Or.inr rfl)

/-- Origin of a neighbor-set membership across one pair-loop iteration:
any new membership is the processed pair, in one of its two
orientations, and only if the bounding-box and shared-vertex tests
passed. -/
theorem mem_neighbors_adjPairStep {m : JsMap (List String)}
    {pr : (ℕ × Feature) × (ℕ × Feature)} {x y : String}
    (h : y ∈ neighbors (adjPairStep m pr) x) :
    y ∈ neighbors m x ∨
      ((bboxesIntersect (bboxOf pr.1.2) (bboxOf pr.2.2)
          && shareVertex pr.1.2 pr.2.2) = true ∧
        ((x = resolveId pr.1.2 pr.1.1 ∧ y = resolveId pr.2.2 pr.2.1) ∨
         (x = resolveId pr.2.2 pr.2.1 ∧ y = resolveId pr.1.2 pr.1.1))) := by
  rw [adjPairStep] at h
  split at h
  case isTrue hcond =>
    rcases mem_neighbors_double_origin h with h' | h' | h'
    · exact Or.inl h'
    · exact Or.inr ⟨hcond, Or.inl h'⟩
    · exact Or.inr ⟨hcond, Or.inr h'⟩
  case isFalse => exact Or.inl h

theorem mem_neighbors_fold {Q : List ((ℕ × Feature) × (ℕ × Feature))}
    {m : JsMap (List String)} {x y : String}
    (h : y ∈ neighbors (Q.foldl adjPairStep m) x) :
    y ∈ neighbors m x ∨
      ∃ pr ∈ Q,
        (bboxesIntersect (bboxOf pr.1.2) (bboxOf pr.2.2)
            && shareVertex pr.1.2 pr.2.2) = true ∧
          ((x = resolveId pr.1.2 pr.1.1 ∧ y = resolveId pr.2.2 pr.2.1) ∨
           (x = resolveId pr.2.2 pr.2.1 ∧ y = resolveId pr.1.2 pr.1.1)) := by
  induction Q generalizing m with
  | nil => exact Or.inl h
  | cons pr Q ih =>
    rw [List.foldl_cons] at h
    rcases ih h with h' | ⟨pr', hpr', hrest⟩
    · rcases mem_neighbors_adjPairStep h' with h'' | h''
      · exact Or.inl h''
      · exact Or.inr ⟨pr, by simp, h''⟩
    · exact Or.inr ⟨pr', by simp [hpr'], hrest⟩

theorem ordPairs_mem {α : Type} {l : List α} {pr : α × α}
    (h : pr ∈ ordPairs l) : pr.1 ∈ l ∧ pr.2 ∈ l := by
  induction l with
  | nil => simp [ordPairs] at h
  | cons x xs ih =>
    rw [ordPairs, List.mem_append] at h
    rcases h with h | h
    · rcases List.mem_map.1 h with ⟨y, hy, rfl⟩
      exact ⟨by simp, by simp [hy]⟩
    · exact ⟨List.mem_cons_of_mem _ (ih h).1, List.mem_cons_of_mem _ (ih h).2⟩

theorem fst_ge_of_mem_enumFrom {α : Type} {fs : List α} {s : ℕ} {q : ℕ × α}
    (h : q ∈ List.enumFrom s fs) : s ≤ q.1 := by
  induction fs generalizing s with
  | nil => simp [List.enumFrom] at h
  | cons f fs ih =>
    rw [List.enumFrom, List.mem_cons] at h
    rcases h with rfl | h
    · exact le_refl _
    · exact le_trans (Nat.le_succ s) (ih h)

theorem ordPairs_enumFrom_lt {fs : List Feature} {s : ℕ}
    {pr : (ℕ × Feature) × (ℕ × Feature)}
    (h : pr ∈ ordPairs (List.enumFrom s fs)) : pr.1.1 < pr.2.1 := by
  induction fs generalizing s with
  | nil => simp [List.enumFrom, ordPairs] at h
  | cons f fs ih =>
    rw [List.enumFrom, ordPairs, List.mem_append] at h
    rcases h with h | h
    · rcases List.mem_map.1 h with ⟨y, hy, rfl⟩
      exact lt_of_lt_of_le (Nat.lt_succ_self s) (fst_ge_of_mem_enumFrom hy)
    · exact ih h

theorem ordPairs_enum_lt {fs : List Feature}
    {pr : (ℕ × Feature) × (ℕ × Feature)} (h : pr ∈ ordPairs fs.enum) :
    pr.1.1 < pr.2.1 :=
  ordPairs_enumFrom_lt (by simpa [List.enum] using h)

/-- Distinct resolved ids resolve distinct `enum` entries. -/
theorem resolveId_inj_of_nodup {fs : List Feature}
    (h : (resolvedIds fs).Nodup) {p q : ℕ × Feature}
    (hp : p ∈ fs.enum) (hq : q ∈ fs.enum)
    (heq : resolveId p.2 p.1 = resolveId q.2 q.1) : p = q := by
  by_contra hne
  have hpw : fs.enum.Pairwise
      (fun a b => resolveId a.2 a.1 ≠ resolveId b.2 b.1) :=
    List.pairwise_map.1 h
  exact hpw.forall (fun a b hab => fun h' => hab h'.symm) hp hq hne heq

/-- Symmetry of the neighbor relation, as an invariant of the pair
loop. -/
theorem symAdj_fold {fs : List Feature}
    {Q : List ((ℕ × Feature) × (ℕ × Feature))} {m : JsMap (List String)}
    (hQ : ∀ pr ∈ Q, pr.1 ∈ fs.enum ∧ pr.2 ∈ fs.enum)
    (hkeys : ∀ p ∈ fs.enum, resolveId p.2 p.1 ∈ mapKeys m)
    (hsym : ∀ x y, y ∈ neighbors m x → x ∈ neighbors m y) :
    ∀ x y, y ∈ neighbors (Q.foldl adjPairStep m) x →
      x ∈ neighbors (Q.foldl adjPairStep m) y := by
  induction Q generalizing m with
  | nil => exact hsym
  | cons pr Q ih =>
    rw [List.foldl_cons]
    have hApr := (hQ pr (by simp)).1
    have hBpr := (hQ pr (by simp)).2
    refine ih (fun pr' hpr' => hQ pr' (by simp [hpr'])) ?_ ?_
    · intro p hp
      rw [mapKeys_adjPairStep]
      exact hkeys p hp
    · intro x y hy
      rw [adjPairStep] at hy ⊢
      split at hy
      case isTrue hcond =>
        rw [if_pos hcond]
        have hA := hkeys _ hApr
        have hB := hkeys _ hBpr
        rw [mem_neighbors_double_update hA hB] at hy
        rw [mem_neighbors_double_update hA hB]
        rcases hy with hy | ⟨rfl, rfl⟩ | ⟨rfl, rfl⟩
        · exact Or.inl (hsym x y hy)
        · exact Or.inr (Or.inr ⟨rfl, rfl⟩)
        · exact Or.inr (Or.inl ⟨rfl, rfl⟩)
      case isFalse hcond =>
        rw [if_neg hcond]
        exact hsym x y hy

/-- The adjacency graph built by `buildAdjacency` is symmetric. -/
theorem buildAdjacency_symm_aux (fs : List Feature) (x y : String)
    (h : y ∈ neighbors (buildAdjacency fs) x) :
    x ∈ neighbors (buildAdjacency fs) y := by
  refine symAdj_fold (fun pr hpr => ordPairs_mem hpr) ?_ ?_ x y h
  · intro p hp
    rw [← jsGet_isSome_iff, adjInit_get]
    simp only [resolvedIds]
    rw [if_pos (List.mem_map.2 ⟨p, hp, rfl⟩)]
    rfl
  · intro a b hb
    rw [neighbors, adjInit_get] at hb
    split at hb <;> simp at hb

/-- Any edge of `buildAdjacency` arises from a feature pair that passed
both the bounding-box and the shared-vertex test. -/
theorem buildAdjacency_edge_origin {fs : List Feature} {x y : String}
    (h : y ∈ neighbors (buildAdjacency fs) x) :
    ∃ pr ∈ ordPairs fs.enum,
      (bboxesIntersect (bboxOf pr.1.2) (bboxOf pr.2.2)
          && shareVertex pr.1.2 pr.2.2) = true ∧
        ((x = resolveId pr.1.2 pr.1.1 ∧ y = resolveId pr.2.2 pr.2.1) ∨
         (x = resolveId pr.2.2 pr.2.1 ∧ y = resolveId pr.1.2 pr.1.1)) := by
  rcases mem_neighbors_fold h with h' | h'
  · rw [neighbors, adjInit_get] at h'
    split at h' <;> simp at h'
  · exact h'

/-- Every endpoint of an edge of `buildAdjacency` is a resolved input
id. -/
theorem buildAdjacency_edge_ids {fs : List Feature} {x y : String}
    (h : y ∈ neighbors (buildAdjacency fs) x) :
    x ∈ resolvedIds fs ∧ y ∈ resolvedIds fs := by
  rcases buildAdjacency_edge_origin h with ⟨pr, hpr, _, hxy⟩
  have h1 : pr.1 ∈ fs.enum := (ordPairs_mem hpr).1
  have h2 : pr.2 ∈ fs.enum := (ordPairs_mem hpr).2
  rcases hxy with ⟨rfl, rfl⟩ | ⟨rfl, rfl⟩
  · exact ⟨List.mem_map.2 ⟨pr.1, h1, rfl⟩, List.mem_map.2 ⟨pr.2, h2, rfl⟩⟩
  · exact ⟨List.mem_map.2 ⟨pr.2, h2, rfl⟩, List.mem_map.2 ⟨pr.1, h1, rfl⟩⟩

theorem mapKeys_buildAdjacency (fs : List Feature)
    (h : (resolvedIds fs).Nodup) :
    mapKeys (buildAdjacency fs) = resolvedIds fs := by
  rw [buildAdjacency, mapKeys_adjPairs_fold, mapKeys_adjInit fs h]

/-- Under distinct resolved ids, no id neighbors itself. -/
theorem buildAdjacency_irrefl_aux {fs : List Feature}
    (hnd : (resolvedIds fs).Nodup) (x : String) :
    x ∉ neighbors (buildAdjacency fs) x := by
  intro hx
  rcases buildAdjacency_edge_origin hx with ⟨pr, hpr, _, hxy⟩
  have hlt : pr.1.1 < pr.2.1 := ordPairs_enum_lt hpr
  have h1 : pr.1 ∈ fs.enum := (ordPairs_mem hpr).1
  have h2 : pr.2 ∈ fs.enum := (ordPairs_mem hpr).2
  have heq : pr.1 = pr.2 := by
    rcases hxy with ⟨he1, he2⟩ | ⟨he1, he2⟩
    · exact resolveId_inj_of_nodup hnd h1 h2 (he1.symm.trans he2)
    · exact (resolveId_inj_of_nodup hnd h2 h1 (he1.symm.trans he2)).symm
  rw [heq] at hlt
  exact lt_irrefl _ hlt


/-! ## Geometry lemmas -/

theorem bboxesIntersect_comm (a b : BBox) :
    bboxesIntersect a b = bboxesIntersect b a := by
  rw [bboxesIntersect, bboxesIntersect]
  cases h1 : XRat.ltB a.maxX b.minX <;> cases h2 : XRat.ltB b.maxX a.minX <;>
    cases h3 : XRat.ltB a.maxY b.minY <;> cases h4 : XRat.ltB b.maxY a.minY <;>
      rfl

theorem shareVertex_eq_false_left {a b : Feature}
    (h : collectOptPts a.geom = []) : shareVertex a b = false := by
  simp [shareVertex, h]

theorem shareVertex_eq_false_right {a b : Feature}
    (h : collectOptPts b.geom = []) : shareVertex a b = false := by
  simp [shareVertex, h]

/-- An empty or missing geometry yields a bounding box with no positive
extent. -/
theorem bboxOf_collapsed {f : Feature} (h : collectOptPts f.geom = []) :
    (bboxOf f).collapsed = true := by
  cases hg : f.geom with
  | none => rw [bboxOf, hg]; rfl
  | some t =>
    rw [hg] at h
    simp only [collectOptPts] at h
    rw [bboxOf, hg]
    simp only [h]
    rfl

/-! ## Degree lemmas -/

theorem le_maxDegree_of_mem {adj : JsMap (List String)}
    {e : String × List String} (h : e ∈ adj) : e.2.length ≤ maxDegree adj := by
  induction adj with
  | nil => simp at h
  | cons a m ih =>
    rcases List.mem_cons.1 h with rfl | h
    · exact le_max_left _ _
    · exact le_trans (ih h) (le_max_right _ _)

theorem neighbors_length_le (adj : JsMap (List String)) (x : String) :
    (neighbors adj x).length ≤ maxDegree adj := by
  cases hget : jsGet adj x with
  | none => simp [neighbors, hget]
  | some l =>
    rw [neighbors, hget, Option.getD_some]
    exact le_maxDegree_of_mem (jsGet_mem hget)

/-! ## `chooseColor` lemmas -/

theorem usageLe_total (palette : List String) (u : JsMap ℕ) (a b : String) :
    usageLe palette u a b = true ∨ usageLe palette u b a = true := by
  simp only [usageLe, Bool.or_eq_true, Bool.and_eq_true, decide_eq_true_eq,
    beq_iff_eq]
  omega

theorem usageLe_trans (palette : List String) (u : JsMap ℕ) (a b c : String)
    (h1 : usageLe palette u a b = true) (h2 : usageLe palette u b c = true) :
    usageLe palette u a c = true := by
  simp only [usageLe, Bool.or_eq_true, Bool.and_eq_true, decide_eq_true_eq,
    beq_iff_eq] at h1 h2 ⊢
  omega

theorem chooseColor_mem {palette : List String} (u : JsMap ℕ)
    (used : List String) (h : palette ≠ []) :
    chooseColor palette u used ∈ palette := by
  rw [chooseColor]
  cases hf : (ssort (usageLe palette u) palette).find?
      (fun c => !(decide (c ∈ used))) with
  | some c =>
    exact mem_ssort.1 (List.mem_of_find?_eq_some hf)
  | none =>
    have hne : ssort (usageLe palette u) palette ≠ [] := by
      intro he
      have hp : palette.Perm [] := (he ▸ ssort_perm (usageLe palette u) palette).symm
      exact h hp.eq_nil
    cases hs : ssort (usageLe palette u) palette with
    | nil => exact absurd hs hne
    | cons c rest =>
      simp only [List.headD_cons]
      exact mem_ssort.1 (hs ▸ List.mem_cons_self c rest)

theorem exists_unused {palette used : List String} (hnd : palette.Nodup)
    (hlen : used.length < palette.length) : ∃ p ∈ palette, p ∉ used := by
  by_contra hall
  push_neg at hall
  have hsub : palette.toFinset ⊆ used.toFinset := by
    intro p hp
    exact List.mem_toFinset.2 (hall p (List.mem_toFinset.1 hp))
  have h1 : palette.length = palette.toFinset.card :=
    (List.toFinset_card_of_nodup hnd).symm
  have h2 : used.toFinset.card ≤ used.length := List.toFinset_card_le used
  have := Finset.card_le_card hsub
  omega

theorem chooseColor_not_used {palette used : List String} (u : JsMap ℕ)
    (hnd : palette.Nodup) (hlen : used.length < palette.length) :
    chooseColor palette u used ∉ used := by
  obtain ⟨p, hp, hpu⟩ := exists_unused hnd hlen
  rw [chooseColor]
  cases hf : (ssort (usageLe palette u) palette).find?
      (fun c => !(decide (c ∈ used))) with
  | some c =>
    have := List.find?_some hf
    simpa using this
  | none =>
    exfalso
    have := List.find?_eq_none.1 hf p (mem_ssort.2 hp)
    simp at this
    exact hpu this

/-- When every palette entry is forbidden, `chooseColor` returns the
least-used entry, ties broken by palette index. -/
theorem chooseColor_exhausted {palette used : List String} (u : JsMap ℕ)
    (hpal : palette ≠ []) (hall : ∀ c ∈ palette, c ∈ used) :
    chooseColor palette u used ∈ palette ∧
      ∀ q ∈ palette,
        usageOf u (chooseColor palette u used) < usageOf u q ∨
          (usageOf u (chooseColor palette u used) = usageOf u q ∧
            palette.indexOf (chooseColor palette u used) ≤ palette.indexOf q) := by
  have hmem := chooseColor_mem u used hpal
  have hfind : (ssort (usageLe palette u) palette).find?
      (fun c => !(decide (c ∈ used))) = none := by
    rw [List.find?_eq_none]
    intro c hc
    simp [hall c (mem_ssort.1 hc)]
  refine ⟨hmem, ?_⟩
  intro q hq
  have hpw : (ssort (usageLe palette u) palette).Pairwise
      (usageLe palette u · · = true) :=
    ssort_pairwise (usageLe_trans palette u) (usageLe_total palette u) palette
  have hchoose : ∀ r ∈ palette,
      usageLe palette u (chooseColor palette u used) r = true := by
    cases hs : ssort (usageLe palette u) palette with
    | nil =>
      intro r hr
      exact absurd (mem_ssort.2 hr) (by rw [hs]; simp)
    | cons c rest =>
      have hcc : chooseColor palette u used = c := by
        rw [chooseColor, hfind, hs, List.headD_cons]
      intro r hr
      rcases List.mem_cons.1 (hs ▸ mem_ssort.2 hr) with rfl | hr'
      · rw [hcc]
        rcases usageLe_total palette u r r with h | h
        · exact h
        · exact h
      · rw [hcc]
        exact (List.pairwise_cons.1 (hs ▸ hpw)).1 r hr'
  have := hchoose q hq
  simpa only [usageLe, Bool.or_eq_true, Bool.and_eq_true, decide_eq_true_eq,
    beq_iff_eq] using this

/-! ## `assignColors` loop lemmas -/

theorem assignStep_colorById (adj : JsMap (List String))
    (palette : List String) (st : CState) (id : String) :
    (assignStep adj palette st id).colorById
      = jsSet st.colorById id
          (chooseColor palette st.usage (usedColors adj st.colorById id)) := rfl

theorem mem_usedColors {adj : JsMap (List String)} {col : JsMap String}
    {id nb c : String} (hnb : nb ∈ neighbors adj id)
    (hc : jsGet col nb = some c) (hne : c ≠ "") :
    c ∈ usedColors adj col id := by
  rw [usedColors]
  exact List.mem_filterMap.2 ⟨nb, hnb, by simp [hc, hne]⟩

theorem usedColors_length_le (adj : JsMap (List String)) (col : JsMap String)
    (id : String) :
    (usedColors adj col id).length ≤ (neighbors adj id).length :=
  List.length_filterMap_le _ _

theorem jsGet_jsSet_isSome {α : Type} (m : JsMap α) (k : String) (v : α)
    (x : String) (h : (jsGet m x).isSome) :
    (jsGet (jsSet m k v) x).isSome := by
  by_cases hxk : x = k
  · rw [hxk, jsGet_jsSet_self]
    rfl
  · rw [jsGet_jsSet_ne _ _ hxk]
    exact h

/-- One step of the greedy loop preserves both invariants: all assigned
colors are palette members, and adjacent distinct ids have different
colors. -/
theorem assignStep_invariant {adj : JsMap (List String)}
    {palette : List String} (hnd : palette.Nodup) (hempty : "" ∉ palette)
    (hdeg : ∀ x, (neighbors adj x).length < palette.length)
    (hsym : ∀ x y, y ∈ neighbors adj x → x ∈ neighbors adj y)
    {st : CState} (hval : ValuesIn palette st.colorById)
    (hprop : ProperColoring adj st.colorById) (id : String) :
    ValuesIn palette (assignStep adj palette st id).colorById ∧
      ProperColoring adj (assignStep adj palette st id).colorById := by
  have hpal : palette ≠ [] := by
    intro h
    have := hdeg id
    rw [h] at this
    simp at this
  have hcmem : chooseColor palette st.usage
      (usedColors adj st.colorById id) ∈ palette :=
    chooseColor_mem _ _ hpal
  have hcused : chooseColor palette st.usage
      (usedColors adj st.colorById id) ∉ usedColors adj st.colorById id :=
    chooseColor_not_used _ hnd
      (lt_of_le_of_lt (usedColors_length_le adj st.colorById id) (hdeg id))
  rw [assignStep_colorById]
  constructor
  · intro x cx hx
    by_cases hxid : x = id
    · rw [hxid, jsGet_jsSet_self] at hx
      cases hx
      exact hcmem
    · rw [jsGet_jsSet_ne _ _ hxid] at hx
      exact hval x cx hx
  · intro a b ca cb hadj hne ha hb
    by_cases haid : a = id
    · by_cases hbid : b = id
      · exact absurd (haid.trans hbid.symm) hne
      · rw [haid, jsGet_jsSet_self] at ha
        cases ha
        rw [jsGet_jsSet_ne _ _ hbid] at hb
        have hcb : cb ∈ palette := hval b cb hb
        have hcbne : cb ≠ "" := fun h => hempty (h ▸ hcb)
        have : cb ∈ usedColors adj st.colorById id :=
          mem_usedColors (haid ▸ hadj) hb hcbne
        intro heq
        exact hcused (heq ▸ this)
    · by_cases hbid : b = id
      · rw [hbid, jsGet_jsSet_self] at hb
        cases hb
        rw [jsGet_jsSet_ne _ _ haid] at ha
        have hca : ca ∈ palette := hval a ca ha
        have hcane : ca ≠ "" := fun h => hempty (h ▸ hca)
        have hadj' : a ∈ neighbors adj id := hbid ▸ hsym a b hadj
        have : ca ∈ usedColors adj st.colorById id :=
          mem_usedColors hadj' ha hcane
        intro heq
        exact hcused (heq ▸ this)
      · rw [jsGet_jsSet_ne _ _ haid] at ha
        rw [jsGet_jsSet_ne _ _ hbid] at hb
        exact hprop a b ca cb hadj hne ha hb

theorem assignLoop_invariant {adj : JsMap (List String)}
    {palette : List String} (hnd : palette.Nodup) (hempty : "" ∉ palette)
    (hdeg : ∀ x, (neighbors adj x).length < palette.length)
    (hsym : ∀ x y, y ∈ neighbors adj x → x ∈ neighbors adj y)
    (order : List String) (st : CState)
    (hval : ValuesIn palette st.colorById)
    (hprop : ProperColoring adj st.colorById) :
    ValuesIn palette (order.foldl (assignStep adj palette) st).colorById ∧
      ProperColoring adj (order.foldl (assignStep adj palette) st).colorById := by
  induction order generalizing st with
  | nil => exact ⟨hval, hprop⟩
  | cons id rest ih =>
    rw [List.foldl_cons]
    obtain ⟨h1, h2⟩ := assignStep_invariant hnd hempty hdeg hsym hval hprop id
    exact ih _ h1 h2

theorem assignLoop_colored (adj : JsMap (List String)) (palette : List String)
    (order : List String) (st : CState) (x : String)
    (h : x ∈ order ∨ (jsGet st.colorById x).isSome) :
    (jsGet (order.foldl (assignStep adj palette) st).colorById x).isSome := by
  induction order generalizing st with
  | nil =>
    rcases h with h | h
    · simp at h
    · exact h
  | cons id rest ih =>
    rw [List.foldl_cons]
    refine ih _ ?_
    rcases h with h | h
    · rcases List.mem_cons.1 h with rfl | h'
      · refine Or.inr ?_
        rw [assignStep_colorById, jsGet_jsSet_self]
        rfl
      · exact Or.inl h'
    · refine Or.inr ?_
      rw [assignStep_colorById]
      exact jsGet_jsSet_isSome _ _ _ _ h

theorem assignLoop_keys (adj : JsMap (List String)) (palette : List String)
    (order : List String) (st : CState) (hnd : order.Nodup)
    (hdisj : ∀ x ∈ order, x ∉ mapKeys st.colorById) :
    mapKeys (order.foldl (assignStep adj palette) st).colorById
      = mapKeys st.colorById ++ order := by
  induction order generalizing st with
  | nil => simp
  | cons id rest ih =>
    rw [List.foldl_cons]
    have hid : id ∉ mapKeys st.colorById := hdisj id (by simp)
    have hkeys : mapKeys (assignStep adj palette st id).colorById
        = mapKeys st.colorById ++ [id] := by
      rw [assignStep_colorById]
      exact mapKeys_jsSet_of_not_mem _ hid
    rw [ih _ ((List.nodup_cons.1 hnd).2), hkeys, List.append_assoc]
    · rfl
    · intro x hx
      rw [hkeys]
      intro hmem
      rcases List.mem_append.1 hmem with h' | h'
      · exact hdisj x (by simp [hx]) h'
      · rcases List.mem_singleton.1 h' with rfl
        exact (List.nodup_cons.1 hnd).1 hx

theorem assignLoop_values {adj : JsMap (List String)} {palette : List String}
    (hpal : palette ≠ []) (order : List String) (st : CState)
    (hval : ValuesIn palette st.colorById) :
    ValuesIn palette (order.foldl (assignStep adj palette) st).colorById := by
  induction order generalizing st with
  | nil => exact hval
  | cons id rest ih =>
    rw [List.foldl_cons]
    refine ih _ ?_
    intro x cx hx
    rw [assignStep_colorById] at hx
    by_cases hxid : x = id
    · rw [hxid, jsGet_jsSet_self] at hx
      cases hx
      exact chooseColor_mem _ _ hpal
    · rw [jsGet_jsSet_ne _ _ hxid] at hx
      exact hval x cx hx

/-- Rewrites `assignColorsWith` as a fold of `assignStep` over the processing
order (the sorted id list). -/
theorem assignColorsWith_eq_fold (palette : List String) (fs : List Feature) :
    assignColorsWith palette fs
      = (((ssort degLe ((resolvedIds fs).map fun id =>
            (id, ((jsGet (buildAdjacency fs) id).getD []).length))).map
              (fun p => p.1)).foldl
          (assignStep (buildAdjacency fs) palette)
          ⟨[], palette.map fun c => (c, 0)⟩).colorById := by
  rw [assignColorsWith, List.foldl_map]

/-- The processing order of `assignColorsWith` is a permutation of the
resolved ids. -/
theorem assignOrder_perm (fs : List Feature) :
    ((ssort degLe ((resolvedIds fs).map fun id =>
        (id, ((jsGet (buildAdjacency fs) id).getD []).length))).map
          (fun p => p.1)).Perm (resolvedIds fs) := by
  have h1 := (ssort_perm degLe ((resolvedIds fs).map fun id =>
    (id, ((jsGet (buildAdjacency fs) id).getD []).length))).map fun p => p.1
  refine h1.trans ?_
  rw [List.map_map]
  have hcomp : ((fun p : String × ℕ => p.1) ∘ fun id =>
      (id, ((jsGet (buildAdjacency fs) id).getD []).length)) = fun id => id :=
    rfl
  rw [hcomp, List.map_id']

/-! ## `rnd6` matches the mathematical rounding it implements -/

theorem rnd6_eq_floor (q : ℚ) : rnd6 q = ⌊q * 1000000 + 1 / 2⌋ := by
  have hden : (q.den : ℚ) ≠ 0 := by
    exact_mod_cast q.den_nz
  have hq : q * 1000000 + 1 / 2
      = ((2 * 1000000 * q.num + (q.den : ℤ) : ℤ) : ℚ) / ((2 * q.den : ℕ) : ℚ) := by
    rw [eq_div_iff (by push_cast; positivity)]
    push_cast
    nth_rewrite 1 [← Rat.num_div_den q]
    field_simp
    ring
  rw [hq, Rat.floor_intCast_div_natCast, rnd6,
    Int.fdiv_eq_ediv _ (by positivity)]
  congr 1

/-! ## Hash-assigner lemmas -/

theorem colorForCommunityCached_fst {cache : JsMap String} {id : String}
    (hc : CacheConsistent cache) :
    (colorForCommunityCached cache id).1 = colorForCommunity id := by
  rw [colorForCommunityCached]
  cases hg : jsGet cache id with
  | some c => exact hc id c hg
  | none => rfl

theorem colorForCommunityCached_snd {cache : JsMap String} {id : String}
    (hc : CacheConsistent cache) :
    CacheConsistent (colorForCommunityCached cache id).2 := by
  rw [colorForCommunityCached]
  cases hg : jsGet cache id with
  | some c => exact hc
  | none =>
    intro x c hx
    by_cases hxid : x = id
    · rw [hxid, jsGet_jsSet_self] at hx
      cases hx
      rw [hxid]
    · rw [jsGet_jsSet_ne _ _ hxid] at hx
      exact hc x c hx

theorem hashRun_aux (ids : List String) (acc : JsMap String × JsMap String)
    (hc : CacheConsistent acc.2) (x : String) :
    jsGet (ids.foldl
        (fun acc id =>
          let r := colorForCommunityCached acc.2 id
          (jsSet acc.1 id r.1, r.2)) acc).1 x
        = (if x ∈ ids then some (colorForCommunity x) else jsGet acc.1 x) ∧
      CacheConsistent (ids.foldl
        (fun acc id =>
          let r := colorForCommunityCached acc.2 id
          (jsSet acc.1 id r.1, r.2)) acc).2 := by
  induction ids generalizing acc with
  | nil => exact ⟨by simp, hc⟩
  | cons id rest ih =>
    rw [List.foldl_cons]
    have hc' : CacheConsistent (colorForCommunityCached acc.2 id).2 :=
      colorForCommunityCached_snd hc
    obtain ⟨h1, h2⟩ := ih ((jsSet acc.1 id (colorForCommunityCached acc.2 id).1,
      (colorForCommunityCached acc.2 id).2)) hc' 
    refine ⟨?_, h2⟩
    rw [h1]
    by_cases hrest : x ∈ rest
    · simp [hrest]
    · by_cases hxid : x = id
      · rw [if_neg hrest, if_pos (by simp [hxid])]
        simp only [hxid, jsGet_jsSet_self]
        rw [colorForCommunityCached_fst hc]
      · rw [if_neg hrest, if_neg (by simp [hxid, hrest]),
          jsGet_jsSet_ne _ _ hxid]

/-- The id-to-color mapping of one render pass: each requested id is
bound to its hash color, nothing else is bound. -/
theorem hashAssignRun_get (cache : JsMap String) (hc : CacheConsistent cache)
    (ids : List String) (x : String) :
    jsGet (hashAssignRun cache ids).1 x
      = if x ∈ ids then some (colorForCommunity x) else none := by
  rw [hashAssignRun]
  rw [(hashRun_aux ids ([], cache) hc x).1]
  rfl

theorem hashAssignRun_cache (cache : JsMap String) (hc : CacheConsistent cache)
    (ids : List String) : CacheConsistent (hashAssignRun cache ids).2 := by
  rw [hashAssignRun]
  exact (hashRun_aux ids ([], cache) hc "").2

/-! ## Claim theorems -/

/-- C3: for every input list of regions, the adjacency graph returned by
`buildAdjacency` is symmetric — `B ∈ neighbors(A)` iff
`A ∈ neighbors(B)` (ids absent from the result have empty neighbor sets
on both sides, so the equivalence holds for all ids). -/
theorem buildAdjacency_symmetric (fs : List Feature) (A B : String) :
    B ∈ neighbors (buildAdjacency fs) A ↔ A ∈ neighbors (buildAdjacency fs) B :=
  ⟨buildAdjacency_symm_aux fs A B, buildAdjacency_symm_aux fs B A⟩

/-- C10: for every input list of regions with pairwise-distinct resolved
ids, the graph returned by `buildAdjacency` is irreflexive: no id is a
member of its own neighbor set. -/
theorem buildAdjacency_irreflexive (fs : List Feature)
    (hnd : (resolvedIds fs).Nodup) (A : String) :
    A ∉ neighbors (buildAdjacency fs) A :=
  buildAdjacency_irrefl_aux hnd A

/-- Witness for C10 on a concrete four-region input. -/
theorem buildAdjacency_irreflexive_witness :
    (resolvedIds [wA, wB, wC, wE]).Nodup ∧
      "a" ∉ neighbors (buildAdjacency [wA, wB, wC, wE]) "a" :=
  ⟨by decide, buildAdjacency_irreflexive [wA, wB, wC, wE] (by decide) "a"⟩

/-- C7 counterexample: as stated — for *every* input list — the claim is
false.  In `cexBBoxList` the regions at indices 0 (`dupXFar`, resolved id
`"x"`) and 1 (`dupY`, resolved id `"y"`) have disjoint bounding boxes,
yet their ids are recorded as neighbors of each other, because a second
region (index 2) also resolves to id `"x"` and touches `"y"`. -/
theorem bbox_disjoint_neighbors_cex :
    (0, dupXFar) ∈ cexBBoxList.enum ∧ (1, dupY) ∈ cexBBoxList.enum ∧
      bboxesIntersect (bboxOf dupXFar) (bboxOf dupY) = false ∧
      resolveId dupY 1 ∈ neighbors (buildAdjacency cexBBoxList)
        (resolveId dupXFar 0) ∧
      resolveId dupXFar 0 ∈ neighbors (buildAdjacency cexBBoxList)
        (resolveId dupY 1) := by
  decide

/-- C7 (amended with pairwise-distinct resolved ids): two regions whose
bounding boxes do not overlap are never recorded as neighbors of each
other by `buildAdjacency`. -/
theorem bbox_disjoint_not_neighbors (fs : List Feature)
    (hnd : (resolvedIds fs).Nodup) (i j : ℕ) (fa fb : Feature)
    (hA : (i, fa) ∈ fs.enum) (hB : (j, fb) ∈ fs.enum)
    (hbb : bboxesIntersect (bboxOf fa) (bboxOf fb) = false) :
    resolveId fb j ∉ neighbors (buildAdjacency fs) (resolveId fa i) := by
  intro hmem
  rcases buildAdjacency_edge_origin hmem with ⟨pr, hpr, hcond, hxy⟩
  obtain ⟨⟨k, a⟩, l, b⟩ := pr
  have h1 := (ordPairs_mem hpr).1
  have h2 := (ordPairs_mem hpr).2
  rw [Bool.and_eq_true] at hcond
  have hint := hcond.1
  rcases hxy with ⟨he1, he2⟩ | ⟨he1, he2⟩
  · have hp1 : (k, a) = (i, fa) := resolveId_inj_of_nodup hnd h1 hA he1.symm
    have hp2 : (l, b) = (j, fb) := resolveId_inj_of_nodup hnd h2 hB he2.symm
    rw [show a = fa from congrArg Prod.snd hp1,
      show b = fb from congrArg Prod.snd hp2, hbb] at hint
    cases hint
  · have hp1 : (k, a) = (j, fb) := resolveId_inj_of_nodup hnd h1 hB he2.symm
    have hp2 : (l, b) = (i, fa) := resolveId_inj_of_nodup hnd h2 hA he1.symm
    rw [show a = fb from congrArg Prod.snd hp1,
      show b = fa from congrArg Prod.snd hp2, bboxesIntersect_comm,
      hbb] at hint
    cases hint

/-- Witness for the amended C7 on a concrete input: the far-away region
`"c"` never neighbors `"a"`. -/
theorem bbox_disjoint_not_neighbors_witness :
    ((resolvedIds [wA, wB, wC]).Nodup ∧ (0, wA) ∈ [wA, wB, wC].enum ∧
        (2, wC) ∈ [wA, wB, wC].enum ∧
        bboxesIntersect (bboxOf wA) (bboxOf wC) = false) ∧
      resolveId wC 2 ∉ neighbors (buildAdjacency [wA, wB, wC]) (resolveId wA 0) :=
  ⟨⟨by decide, by decide, by decide, by decide⟩,
    bbox_disjoint_not_neighbors [wA, wB, wC] (by decide) 0 2 wA wC
      (by decide) (by decide) (by decide)⟩

/-- C9 counterexample: as stated — for *every* input list — the claim is
false.  In `cexGeomList` the region at index 0 has a missing geometry,
yet its resolved id `"x"` ends up with the nonempty neighbor set
`["y"]` (and is recorded as a neighbor of `"y"`), because a second
region also resolves to `"x"` and touches `"y"`. -/
theorem empty_geometry_neighbors_cex :
    (0, dupXNone) ∈ cexGeomList.enum ∧ dupXNone.geom = none ∧
      neighbors (buildAdjacency cexGeomList) (resolveId dupXNone 0) = ["y"] ∧
      resolveId dupXNone 0 ∈ neighbors (buildAdjacency cexGeomList) "y" := by
  decide

/-- C9 (amended with pairwise-distinct resolved ids): a region whose
geometry is empty or missing yields a bounding box with no positive
extent, ends up with an empty neighbor set, and is never recorded as
anyone's neighbor.  All functions involved are total, so no exception
can arise. -/
theorem empty_geometry_isolated (fs : List Feature)
    (hnd : (resolvedIds fs).Nodup) (i : ℕ) (f : Feature)
    (hmem : (i, f) ∈ fs.enum) (hgeom : collectOptPts f.geom = []) :
    (bboxOf f).collapsed = true ∧
      neighbors (buildAdjacency fs) (resolveId f i) = [] ∧
      ∀ z : String, resolveId f i ∉ neighbors (buildAdjacency fs) z := by
  have hno : ∀ z : String, resolveId f i ∉ neighbors (buildAdjacency fs) z := by
    intro z hmem'
    rcases buildAdjacency_edge_origin hmem' with ⟨pr, hpr, hcond, hxy⟩
    obtain ⟨⟨k, a⟩, l, b⟩ := pr
    have h1 := (ordPairs_mem hpr).1
    have h2 := (ordPairs_mem hpr).2
    rw [Bool.and_eq_true] at hcond
    have hshare := hcond.2
    rcases hxy with ⟨he1, he2⟩ | ⟨he1, he2⟩
    · have hp2 : (l, b) = (i, f) := resolveId_inj_of_nodup hnd h2 hmem he2.symm
      rw [show b = f from congrArg Prod.snd hp2,
        shareVertex_eq_false_right hgeom] at hshare
      cases hshare
    · have hp1 : (k, a) = (i, f) := resolveId_inj_of_nodup hnd h1 hmem he2.symm
      rw [show a = f from congrArg Prod.snd hp1,
        shareVertex_eq_false_left hgeom] at hshare
      cases hshare
  refine ⟨bboxOf_collapsed hgeom, ?_, hno⟩
  rw [List.eq_nil_iff_forall_not_mem]
  intro y hy
  exact hno y (buildAdjacency_symm_aux fs _ y hy)

/-- Witness for the amended C9 on a concrete input with a
missing-geometry region `"e"`. -/
theorem empty_geometry_isolated_witness :
    ((resolvedIds [wE, wA, wB]).Nodup ∧ (0, wE) ∈ [wE, wA, wB].enum ∧
        collectOptPts wE.geom = []) ∧
      ((bboxOf wE).collapsed = true ∧
        neighbors (buildAdjacency [wE, wA, wB]) (resolveId wE 0) = [] ∧
        ∀ z : String, resolveId wE 0 ∉ neighbors (buildAdjacency [wE, wA, wB]) z) :=
  ⟨⟨by decide, by decide, by decide⟩,
    empty_geometry_isolated [wE, wA, wB] (by decide) 0 wE (by decide) (by decide)⟩

/-- C2: for every input list of regions with pairwise-distinct resolved
ids, the key list of `buildAdjacency` is exactly the resolved id list,
and the key list of `assignColors` is a permutation of it: each distinct
input id appears exactly once as a key, and no other key appears. -/
theorem coloring_keys_exact (fs : List Feature)
    (hnd : (resolvedIds fs).Nodup) :
    mapKeys (buildAdjacency fs) = resolvedIds fs ∧
      (mapKeys (assignColors fs)).Perm (resolvedIds fs) := by
  refine ⟨mapKeys_buildAdjacency fs hnd, ?_⟩
  rw [assignColors, assignColorsWith_eq_fold]
  have hperm := assignOrder_perm fs
  have hndo := hperm.nodup_iff.2 hnd
  rw [assignLoop_keys _ _ _ _ hndo (by intro x hx; simp)]
  simpa using hperm

/-- Witness for C2 on a concrete four-region input. -/
theorem coloring_keys_exact_witness :
    (resolvedIds [wA, wB, wC, wE]).Nodup ∧
      (mapKeys (buildAdjacency [wA, wB, wC, wE]) = resolvedIds [wA, wB, wC, wE] ∧
        (mapKeys (assignColors [wA, wB, wC, wE])).Perm
          (resolvedIds [wA, wB, wC, wE])) :=
  ⟨by decide, coloring_keys_exact [wA, wB, wC, wE] (by decide)⟩

/-- C1: for every input list of regions with pairwise-distinct resolved
ids, if the palette has strictly more entries than the maximum degree of
the adjacency graph, then any two neighboring ids receive different
colors from `assignColors`. -/
theorem assignColors_adjacent_ne (fs : List Feature)
    (hnd : (resolvedIds fs).Nodup)
    (hdeg : maxDegree (buildAdjacency fs) < PALETTE.length)
    (A B : String) (hAB : B ∈ neighbors (buildAdjacency fs) A) :
    ∃ cA cB, jsGet (assignColors fs) A = some cA ∧
      jsGet (assignColors fs) B = some cB ∧ cA ≠ cB := by
  have hsym := fun x y => buildAdjacency_symm_aux fs x y
  have hdeg' : ∀ x, (neighbors (buildAdjacency fs) x).length < PALETTE.length :=
    fun x => lt_of_le_of_lt (neighbors_length_le _ x) hdeg
  have hids := buildAdjacency_edge_ids hAB
  have hAne : A ≠ B := by
    intro h
    exact buildAdjacency_irrefl_aux hnd B (h ▸ hAB)
  have hperm := assignOrder_perm fs
  rw [assignColors, assignColorsWith_eq_fold]
  set order := ((ssort degLe ((resolvedIds fs).map fun id =>
    (id, ((jsGet (buildAdjacency fs) id).getD []).length))).map
      fun p => p.1) with horder
  have hcolA := assignLoop_colored (buildAdjacency fs) PALETTE order
    ⟨[], PALETTE.map fun c => (c, 0)⟩ A (Or.inl (hperm.mem_iff.2 hids.1))
  have hcolB := assignLoop_colored (buildAdjacency fs) PALETTE order
    ⟨[], PALETTE.map fun c => (c, 0)⟩ B (Or.inl (hperm.mem_iff.2 hids.2))
  obtain ⟨cA, hcA⟩ := Option.isSome_iff_exists.1 hcolA
  obtain ⟨cB, hcB⟩ := Option.isSome_iff_exists.1 hcolB
  have hinv := assignLoop_invariant (by decide) (by decide) hdeg' hsym order
    ⟨[], PALETTE.map fun c => (c, 0)⟩
    (by intro x c h; simp [jsGet] at h)
    (by intro a b ca cb hadj hne ha hb; simp [jsGet] at ha)
  exact ⟨cA, cB, hcA, hcB, hinv.2 A B cA cB hAB hAne hcA hcB⟩

/-- Witness for C1 on a concrete input: the two touching squares receive
different colors. -/
theorem assignColors_adjacent_ne_witness :
    ((resolvedIds [wA, wB, wC, wE]).Nodup ∧
        maxDegree (buildAdjacency [wA, wB, wC, wE]) < PALETTE.length ∧
        "b" ∈ neighbors (buildAdjacency [wA, wB, wC, wE]) "a") ∧
      ∃ cA cB, jsGet (assignColors [wA, wB, wC, wE]) "a" = some cA ∧
        jsGet (assignColors [wA, wB, wC, wE]) "b" = some cB ∧ cA ≠ cB :=
  ⟨⟨by decide, by decide, by decide⟩,
    assignColors_adjacent_ne [wA, wB, wC, wE] (by decide) (by decide)
      "a" "b" (by decide)⟩

/-- C8: for every input list of regions and every palette with at least
one entry, every color value in the mapping returned by the color
assigner is a member of the palette (`assignColors` is
`assignColorsWith PALETTE`). -/
theorem assignColors_mem_palette (palette : List String) (fs : List Feature)
    (hpal : 0 < palette.length) (x c : String)
    (hx : jsGet (assignColorsWith palette fs) x = some c) : c ∈ palette := by
  have hne : palette ≠ [] := List.ne_nil_of_length_pos hpal
  rw [assignColorsWith_eq_fold] at hx
  exact assignLoop_values hne _ _ (by intro x c h; simp [jsGet] at h) x c hx

/-- Witness for C8 on a concrete input and the repository palette. -/
theorem assignColors_mem_palette_witness :
    (0 < PALETTE.length ∧
        jsGet (assignColorsWith PALETTE [wA, wB, wC, wE]) "a"
          = some "#00A6ED") ∧
      "#00A6ED" ∈ PALETTE :=
  ⟨⟨by decide, by decide⟩,
    assignColors_mem_palette PALETTE [wA, wB, wC, wE] (by decide) "a"
      "#00A6ED" (by decide)⟩

/-- C6: when, during the greedy loop of `assignColors`, every palette
entry already appears on a colored neighbor of the region being
processed, that step deterministically assigns the globally least-used
palette color, ties broken by palette order (and, being a total
function, raises nothing). -/
theorem assignStep_exhausted_least_used (adj : JsMap (List String))
    (palette : List String) (st : CState) (id : String)
    (hpal : palette ≠ [])
    (hall : ∀ c ∈ palette, c ∈ usedColors adj st.colorById id) :
    ∃ m, jsGet (assignStep adj palette st id).colorById id = some m ∧
      m ∈ palette ∧
      ∀ q ∈ palette, usageOf st.usage m < usageOf st.usage q ∨
        (usageOf st.usage m = usageOf st.usage q ∧
          palette.indexOf m ≤ palette.indexOf q) := by
  obtain ⟨hmem, hmin⟩ := chooseColor_exhausted st.usage hpal hall
  exact ⟨_, by rw [assignStep_colorById, jsGet_jsSet_self], hmem, hmin⟩

/-- Witness for C6: region `"r"` has both palette colors on its
neighbors; the step picks the least-used color (tie broken by palette
order). -/
theorem assignStep_exhausted_least_used_witness :
    ((["ca", "cb"] : List String) ≠ [] ∧
        ∀ c ∈ (["ca", "cb"] : List String),
          c ∈ usedColors wAdj6 wSt6.colorById "r") ∧
      ∃ m, jsGet (assignStep wAdj6 ["ca", "cb"] wSt6 "r").colorById "r"
          = some m ∧
        m ∈ (["ca", "cb"] : List String) ∧
        ∀ q ∈ (["ca", "cb"] : List String),
          usageOf wSt6.usage m < usageOf wSt6.usage q ∨
            (usageOf wSt6.usage m = usageOf wSt6.usage q ∧
              (["ca", "cb"] : List String).indexOf m
                ≤ (["ca", "cb"] : List String).indexOf q) :=
  ⟨⟨by decide, by decide⟩,
    assignStep_exhausted_least_used wAdj6 ["ca", "cb"] wSt6 "r"
      (by decide) (by decide)⟩

/-- C4: the hash-based assigner is order-independent and deterministic:
a first render pass (from the empty module-load cache) and a second pass
over the same id set in any order (reusing the cache the first pass
left behind) produce identical id-to-color mappings. -/
theorem hashAssigner_order_independent (l1 l2 : List String)
    (hmem : ∀ x, x ∈ l1 ↔ x ∈ l2) (id : String) :
    jsGet (hashAssignRun [] l1).1 id
      = jsGet (hashAssignRun (hashAssignRun [] l1).2 l2).1 id := by
  have hc0 : CacheConsistent ([] : JsMap String) := by
    intro x c h
    simp [jsGet] at h
  have hc1 := hashAssignRun_cache [] hc0 l1
  rw [hashAssignRun_get [] hc0 l1 id, hashAssignRun_get _ hc1 l2 id]
  by_cases h : id ∈ l1
  · rw [if_pos h, if_pos ((hmem id).1 h)]
  · rw [if_neg h, if_neg fun h' => h ((hmem id).2 h')]

/-- Witness for C4: the runs over `["a", "b"]` and `["b", "a"]` agree at
`"a"`. -/
theorem hashAssigner_order_independent_witness :
    (∀ x, x ∈ (["a", "b"] : List String) ↔ x ∈ (["b", "a"] : List String)) ∧
      jsGet (hashAssignRun [] ["a", "b"]).1 "a"
        = jsGet (hashAssignRun (hashAssignRun [] ["a", "b"]).2 ["b", "a"]).1
            "a" := by
  have hm : ∀ x, x ∈ (["a", "b"] : List String) ↔ x ∈ (["b", "a"] : List String) := by
    intro x
    simp [List.mem_cons, or_comm]
  exact ⟨hm, hashAssigner_order_independent ["a", "b"] ["b", "a"] hm "a"⟩

/-- C5 counterexample: the code's hash assigner is *not* positional.  On
the id set `{"a", "b"}` the code maps `"a"` to
`communityPalette[hash("a") % 12] = "#f97316"`, while the positional
rule of the spec (sort by `(hash, id)`, assign by sorted index) maps
`"a"` to `communityPalette[0] = "#0ea5e9"`. -/
theorem hashAssigner_not_positional_cex :
    jsGet (hashAssignRun [] ["a", "b"]).1 "a" = some "#f97316" ∧
      jsGet (specPositionalAssign ["a", "b"]) "a" = some "#0ea5e9" ∧
      jsGet (hashAssignRun [] ["a", "b"]).1 "a"
        ≠ jsGet (specPositionalAssign ["a", "b"]) "a" := by
  decide

/-- C5 (amended): the hash assigner determines each id's color directly
from its own hash — `communityPalette[abs(hash(id)) % paletteLength]` —
independently of the rest of the id set; no sorting is involved. -/
theorem hashAssigner_hash_direct (cache : JsMap String)
    (hc : CacheConsistent cache) (ids : List String) (id : String)
    (hid : id ∈ ids) :
    jsGet (hashAssignRun cache ids).1 id = some (colorForCommunity id) := by
  rw [hashAssignRun_get cache hc ids id, if_pos hid]

/-- Witness for the amended C5. -/
theorem hashAssigner_hash_direct_witness :
    ("a" ∈ (["a", "b"] : List String)) ∧
      jsGet (hashAssignRun [] ["a", "b"]).1 "a"
        = some (colorForCommunity "a") :=
  ⟨by decide,
    hashAssigner_hash_direct [] (by intro x c h; simp [jsGet] at h)
      ["a", "b"] "a" (by decide)⟩

end Clm
